import Mathlib

/-!
# Verification of the GitSavvy diff engine (core/commands/diff.py)

This development gives a shallow embedding, in Lean 4, of the pure core of
the diff module:

* `postprocess_word_diff` — the word-diff postprocessor that strips the
  inline markers and records styled regions,
* `real_rowcol_in_hunk` / `counted_lines` / `_recount_lines` — the
  hunk-relative to file coordinate mapper,
* `fuzzy_search_hunk_content_in_view` / `shrink_list_sym` — the fuzzy
  hunk locator used after a re-render.

Text is modelled as `List Char` (Python string indices are character
offsets).  Fallible functions return `Option`; the one place where the
Python code can raise (an out-of-range list index) is modelled with
`Except Unit`.  Editor regions (`sublime.Region`) are pairs of integer
offsets.
-/

/-- A half-open interval of text offsets, as `sublime.Region(a, b)`. -/
structure Region where
  a : Int
  b : Int
deriving DecidableEq, Repr

/-! ## Word-diff postprocessing

The source uses `WORD_DIFF_MARKERS_RE = re.compile(r"\x7b\+(.*?)\+\x7d|\[-(.*?)-\]")`
together with `re.sub` and an extractor closure.  We embed the regex
semantics directly: `.` does not match a newline, `(.*?)` is non-greedy so
the inner text ends at the first closing delimiter pair. -/

/-- Scan for the two-character closing delimiter `c1 c2`, returning the
(non-greedy, newline-free) inner text before it.  `none` when no closer
occurs before a newline or the end of input. -/
def innerUpTo (c1 c2 : Char) : List Char → Option (List Char)
  | c :: c' :: rest =>
    if c = c1 ∧ c' = c2 then some []
    else if c = '\n' then none
    else (innerUpTo c1 c2 (c' :: rest)).map (fun l => c :: l)
  | _ => none

/-- Try to match `WORD_DIFF_MARKERS_RE` at the head of the input.  Returns
the flag (`true` for an added marker, as tested by `match.group()[1] == '+'`
in the source) and the inner text. -/
def matchAt : List Char → Option (Bool × List Char)
  | '\x7b' :: '+' :: rest => (innerUpTo '+' '\x7d' rest).map (fun l => (true, l))
  | '[' :: '-' :: rest => (innerUpTo '-' ']' rest).map (fun l => (false, l))
  | _ => none

theorem innerUpTo_length {c1 c2 : Char} : ∀ {l inner : List Char},
    innerUpTo c1 c2 l = some inner → inner.length + 2 ≤ l.length := by
  intro l
  induction l with
  | nil => intro inner h; simp [innerUpTo] at h
  | cons c rest ih =>
    intro inner h
    match rest, h with
    | [], h => simp [innerUpTo] at h
    | c' :: rest', h =>
      rw [innerUpTo] at h
      split at h
      · simp_all
      · split at h
        · exact absurd h (by simp)
        · simp only [Option.map_eq_some'] at h
          obtain ⟨inner', hi, rfl⟩ := h
          have := ih hi
          simpa using Nat.succ_le_succ this

theorem matchAt_length {s : List Char} {flag : Bool} {t : List Char}
    (h : matchAt s = some (flag, t)) : t.length + 4 ≤ s.length := by
  unfold matchAt at h
  split at h
  · simp only [Option.map_eq_some'] at h
    obtain ⟨inner, hi, heq⟩ := h
    cases heq
    have := innerUpTo_length hi
    simpa using Nat.succ_le_succ (Nat.succ_le_succ this)
  · simp only [Option.map_eq_some'] at h
    obtain ⟨inner, hi, heq⟩ := h
    cases heq
    have := innerUpTo_length hi
    simpa using Nat.succ_le_succ (Nat.succ_le_succ this)
  · exact absurd h (by simp)

/-- One left-to-right pass of `re.sub` over the input: returns the output
text (each marker replaced by its bare inner text, as the extractor does)
together with the list of matches — input start offset, added flag and
inner text, in match order.  `pos` is the absolute input offset of the
current suffix.  The `fuel` argument only bounds the recursion (any
`fuel ≥ s.length` gives the same result, see `pwd_scan_go_fuel`): on a
match the scan skips past it, otherwise it advances one character. -/
def pwd_scan_go : Nat → List Char → Nat → List Char × List (Nat × Bool × List Char)
  | 0, _, _ => ([], [])
  | fuel + 1, s, pos =>
    match matchAt s with
    | some (flag, t) =>
      let next := pwd_scan_go fuel (s.drop (t.length + 4)) (pos + t.length + 4)
      (t ++ next.1, (pos, flag, t) :: next.2)
    | none =>
      match s with
      | [] => ([], [])
      | c :: rest =>
        let next := pwd_scan_go fuel rest (pos + 1)
        (c :: next.1, next.2)

/-- The scan of the whole input, with enough fuel for every step. -/
def pwd_scan (s : List Char) (pos : Nat) : List Char × List (Nat × Bool × List Char) :=
  pwd_scan_go s.length s pos

theorem pwd_scan_go_nil (fuel pos : Nat) : pwd_scan_go fuel [] pos = ([], []) := by
  cases fuel <;> simp [pwd_scan_go, matchAt]

theorem pwd_scan_go_succ_match {s : List Char} {flag : Bool} {t : List Char}
    (fuel pos : Nat) (hm : matchAt s = some (flag, t)) :
    pwd_scan_go (fuel + 1) s pos =
      (t ++ (pwd_scan_go fuel (s.drop (t.length + 4)) (pos + t.length + 4)).1,
       (pos, flag, t) :: (pwd_scan_go fuel (s.drop (t.length + 4)) (pos + t.length + 4)).2) := by
  simp [pwd_scan_go, hm]

theorem pwd_scan_go_succ_nomatch {c : Char} {rest : List Char}
    (fuel pos : Nat) (hm : matchAt (c :: rest) = none) :
    pwd_scan_go (fuel + 1) (c :: rest) pos =
      (c :: (pwd_scan_go fuel rest (pos + 1)).1, (pwd_scan_go fuel rest (pos + 1)).2) := by
  simp [pwd_scan_go, hm]

theorem pwd_scan_go_fuel : ∀ (fuel fuel' : Nat) (s : List Char) (pos : Nat),
    s.length ≤ fuel → s.length ≤ fuel' →
    pwd_scan_go fuel s pos = pwd_scan_go fuel' s pos := by
  intro fuel
  induction fuel with
  | zero =>
    intro fuel' s pos hf hf'
    have : s = [] := by
      cases s with
      | nil => rfl
      | cons c rest => simp at hf
    subst this
    cases fuel' <;> simp [pwd_scan_go, matchAt]
  | succ fuel ih =>
    intro fuel' s pos hf hf'
    cases fuel' with
    | zero =>
      have : s = [] := by
        cases s with
        | nil => rfl
        | cons c rest => simp at hf'
      subst this
      simp [pwd_scan_go, matchAt]
    | succ fuel' =>
      simp only [pwd_scan_go]
      cases hm : matchAt s with
      | some p =>
        obtain ⟨flag, t⟩ := p
        have hlen := matchAt_length hm
        have hdrop : (s.drop (t.length + 4)).length ≤ fuel := by
          simp only [List.length_drop]; omega
        have hdrop' : (s.drop (t.length + 4)).length ≤ fuel' := by
          simp only [List.length_drop]; omega
        simp only [ih fuel' _ _ hdrop hdrop']
      | none =>
        cases s with
        | nil => rfl
        | cons c rest =>
          have h1 : rest.length ≤ fuel := by simp at hf; omega
          have h2 : rest.length ≤ fuel' := by simp at hf'; omega
          simp only [ih fuel' _ _ h1 h2]

/-- The extractor's region bookkeeping: the match starting at input offset
`s`, with `k` matches already replaced before it, is recorded as the region
`[base + s - 4*k, base + s - 4*k + len t)` (on each match the diff is
shortened by 4 characters). -/
def mk_regions (base : Int) : List (Nat × Bool × List Char) → Nat → List (Bool × Region)
  | [], _ => []
  | (s, flag, t) :: evs, k =>
    let o : Int := base + s - 4 * k
    (flag, ⟨o, o + t.length⟩) :: mk_regions base evs (k + 1)

/-- `postprocess_word_diff(text, global_offset)` from the source: returns
the plain text with every marker replaced by its inner text, plus the two
region lists (added first), each in match order. -/
def postprocess_word_diff (text : List Char) (global_offset : Int) :
    List Char × List Region × List Region :=
  let scanned := pwd_scan text 0
  let tagged := mk_regions global_offset scanned.2 0
  (scanned.1,
   (tagged.filter (fun p => p.1)).map (fun p => p.2),
   (tagged.filter (fun p => !p.1)).map (fun p => p.2))

/-- `true` when some suffix of the text begins a word-diff marker, i.e. the
marker regex has a match somewhere in the text. -/
def has_word_diff_marker (text : List Char) : Bool :=
  text.tails.any (fun s => (matchAt s).isSome)

/-! ### Invariants of the word-diff scan -/

theorem pwd_scan_go_length : ∀ (fuel : Nat) (s : List Char) (pos : Nat),
    s.length ≤ fuel →
    (pwd_scan_go fuel s pos).1.length + 4 * (pwd_scan_go fuel s pos).2.length = s.length := by
  intro fuel
  induction fuel with
  | zero =>
    intro s pos hf
    have : s = [] := by cases s with
      | nil => rfl
      | cons c rest => simp at hf
    subst this
    simp [pwd_scan_go]
  | succ fuel ih =>
    intro s pos hf
    simp only [pwd_scan_go]
    cases hm : matchAt s with
    | some p =>
      obtain ⟨flag, t⟩ := p
      have hlen := matchAt_length hm
      have hdrop : (s.drop (t.length + 4)).length ≤ fuel := by
        simp only [List.length_drop]; omega
      have := ih (s.drop (t.length + 4)) (pos + t.length + 4) hdrop
      simp only [List.length_append, List.length_cons]
      simp only [List.length_drop] at this
      omega
    | none =>
      cases s with
      | nil => simp
      | cons c rest =>
        have h1 : rest.length ≤ fuel := by simp at hf; omega
        have := ih rest (pos + 1) h1
        simp only [List.length_cons]
        omega

theorem pwd_scan_go_slice : ∀ (fuel : Nat) (s : List Char) (pos : Nat)
    (k idx : Nat) (flag : Bool) (t : List Char),
    s.length ≤ fuel →
    (pwd_scan_go fuel s pos).2.get? k = some (idx, flag, t) →
    pos + 4 * k ≤ idx ∧
      ((pwd_scan_go fuel s pos).1.drop (idx - pos - 4 * k)).take t.length = t := by
  intro fuel
  induction fuel with
  | zero =>
    intro s pos k idx flag t hf h
    have : s = [] := by cases s with
      | nil => rfl
      | cons c rest => simp at hf
    subst this
    simp [pwd_scan_go] at h
  | succ fuel ih =>
    intro s pos k idx flag t hf h
    cases hm : matchAt s with
    | some p =>
      obtain ⟨flag', t'⟩ := p
      rw [pwd_scan_go_succ_match fuel pos hm] at h ⊢
      have hlen := matchAt_length hm
      have hdrop : (s.drop (t'.length + 4)).length ≤ fuel := by
        simp only [List.length_drop]; omega
      cases k with
      | zero =>
        simp only [List.get?_cons_zero, Option.some.injEq] at h
        obtain ⟨rfl, rfl, rfl⟩ := h
        constructor
        · omega
        · simp only [Nat.mul_zero, Nat.sub_self, Nat.sub_zero, List.drop_zero]
          exact List.take_left _ _
      | succ k =>
        simp only [List.get?_cons_succ] at h
        have := ih (s.drop (t'.length + 4)) (pos + t'.length + 4) k idx flag t hdrop h
        obtain ⟨hge, hslice⟩ := this
        constructor
        · omega
        · have harith : idx - pos - 4 * (k + 1) = t'.length + (idx - (pos + t'.length + 4) - 4 * k) := by
            omega
          rw [harith, List.drop_append]
          exact hslice
    | none =>
      cases s with
      | nil => rw [pwd_scan_go_nil] at h; simp at h
      | cons c rest =>
        rw [pwd_scan_go_succ_nomatch fuel pos hm] at h ⊢
        have h1 : rest.length ≤ fuel := by simp at hf; omega
        have := ih rest (pos + 1) k idx flag t h1 h
        obtain ⟨hge, hslice⟩ := this
        constructor
        · omega
        · have harith : idx - pos - 4 * k = (idx - (pos + 1) - 4 * k) + 1 := by omega
          rw [harith]
          simpa using hslice

/-- The matches produced by the scan are chained: each match starts at or
after the scan position, and the next match starts after the end of the
current one (which occupies `t.length + 4` input characters). -/
def Chained : List (Nat × Bool × List Char) → Nat → Prop
  | [], _ => True
  | (idx, _, t) :: evs, lo => lo ≤ idx ∧ Chained evs (idx + t.length + 4)

theorem chained_mono : ∀ {evs : List (Nat × Bool × List Char)} {lo lo' : Nat},
    Chained evs lo → lo' ≤ lo → Chained evs lo' := by
  intro evs
  cases evs with
  | nil => intro lo lo' h hle; trivial
  | cons p rest =>
    obtain ⟨idx, flag, t⟩ := p
    intro lo lo' h hle
    exact ⟨Nat.le_trans hle h.1, h.2⟩

theorem pwd_scan_go_chained : ∀ (fuel : Nat) (s : List Char) (pos : Nat),
    Chained (pwd_scan_go fuel s pos).2 pos := by
  intro fuel
  induction fuel with
  | zero => intro s pos; simp [pwd_scan_go, Chained]
  | succ fuel ih =>
    intro s pos
    cases hm : matchAt s with
    | some p =>
      obtain ⟨flag, t⟩ := p
      rw [pwd_scan_go_succ_match fuel pos hm]
      exact ⟨Nat.le_refl _, ih _ _⟩
    | none =>
      cases s with
      | nil => rw [pwd_scan_go_nil]; trivial
      | cons c rest =>
        rw [pwd_scan_go_succ_nomatch fuel pos hm]
        exact chained_mono (ih rest (pos + 1)) (by omega)

theorem mk_regions_get? (base : Int) : ∀ (evs : List (Nat × Bool × List Char)) (k0 k : Nat),
    (mk_regions base evs k0).get? k =
      (evs.get? k).map (fun p =>
        (p.2.1, ⟨base + p.1 - 4 * (k0 + k), base + p.1 - 4 * (k0 + k) + p.2.2.length⟩)) := by
  intro evs
  induction evs with
  | nil => intro k0 k; simp [mk_regions]
  | cons p evs ih =>
    obtain ⟨s, flag, t⟩ := p
    intro k0 k
    cases k with
    | zero => simp [mk_regions]
    | succ k =>
      simp only [mk_regions, List.get?_cons_succ, ih (k0 + 1) k]
      have hcast : ((k0 + 1 : Nat) : Int) + (k : Int) = (k0 : Int) + ((k + 1 : Nat) : Int) := by
        push_cast; ring
      rw [hcast]

theorem mk_regions_length (base : Int) : ∀ (evs : List (Nat × Bool × List Char)) (k : Nat),
    (mk_regions base evs k).length = evs.length := by
  intro evs
  induction evs with
  | nil => intro k; simp [mk_regions]
  | cons p evs ih =>
    obtain ⟨s, flag, t⟩ := p
    intro k
    simp [mk_regions, ih]

theorem filter_true_false_length : ∀ (l : List (Bool × Region)),
    (l.filter (fun p => p.1)).length + (l.filter (fun p => !p.1)).length = l.length := by
  intro l
  induction l with
  | nil => simp
  | cons p l ih =>
    obtain ⟨flag, r⟩ := p
    cases flag <;> simp [List.filter] <;> omega

theorem mem_mk_regions_lower (base : Int) : ∀ (evs : List (Nat × Bool × List Char))
    (lo k : Nat), Chained evs lo →
    ∀ p ∈ mk_regions base evs k, base + lo - 4 * k ≤ p.2.a := by
  intro evs
  induction evs with
  | nil => intro lo k hc p hp; simp [mk_regions] at hp
  | cons q evs ih =>
    obtain ⟨s, flag, t⟩ := q
    intro lo k hc p hp
    obtain ⟨hlo, hrest⟩ := hc
    simp only [mk_regions, List.mem_cons] at hp
    cases hp with
    | inl h =>
      subst h
      simp only
      omega
    | inr h =>
      have := ih (s + t.length + 4) (k + 1) hrest p h
      omega

theorem mk_regions_pairwise (base : Int) : ∀ (evs : List (Nat × Bool × List Char))
    (lo k : Nat), Chained evs lo →
    List.Pairwise (fun p q : Bool × Region => p.2.a ≤ q.2.a) (mk_regions base evs k) := by
  intro evs
  induction evs with
  | nil => intro lo k hc; simp [mk_regions]
  | cons q evs ih =>
    obtain ⟨s, flag, t⟩ := q
    intro lo k hc
    obtain ⟨hlo, hrest⟩ := hc
    simp only [mk_regions]
    constructor
    · intro p hp
      have := mem_mk_regions_lower base evs (s + t.length + 4) (k + 1) hrest p hp
      simp only
      omega
    · exact ih (s + t.length + 4) (k + 1) hrest

theorem pwd_scan_go_no_match : ∀ (fuel : Nat) (s : List Char) (pos : Nat),
    s.length ≤ fuel → (∀ s', s' <:+ s → matchAt s' = none) →
    pwd_scan_go fuel s pos = (s, []) := by
  intro fuel
  induction fuel with
  | zero =>
    intro s pos hf hnone
    have : s = [] := by cases s with
      | nil => rfl
      | cons c rest => simp at hf
    subst this
    exact pwd_scan_go_nil 0 pos
  | succ fuel ih =>
    intro s pos hf hnone
    have hm : matchAt s = none := hnone s (List.suffix_refl s)
    cases s with
    | nil => exact pwd_scan_go_nil _ pos
    | cons c rest =>
      rw [pwd_scan_go_succ_nomatch fuel pos hm]
      have h1 : rest.length ≤ fuel := by simp at hf; omega
      have h2 : ∀ s', s' <:+ rest → matchAt s' = none := fun s' hs' =>
        hnone s' (hs'.trans (List.suffix_cons c rest))
      rw [ih rest (pos + 1) h1 h2]

/-! ### Claims about the word-diff postprocessor -/

/-- C1 (counterexample): on input with markers at base offset 0 the spec
example claims the plain text is the input with the markers and the removed
inner text dropped; the code keeps every inner text, so the triple claimed
by the spec is not what the function returns. -/
theorem postprocess_word_diff_example_ne_spec :
    postprocess_word_diff ("\x7b+a+\x7dbc[-d-]e".toList) 0 ≠
      ("abce".toList, [⟨0, 1⟩], [⟨3, 4⟩]) := by
  decide

/-- C1 (amended): on input at base offset 0 the plain text keeps the
removed inner text as well, giving the output text with the added region
covering the first inner text and the removed region covering the second
one, both shifted left by 4 characters per preceding marker. -/
theorem postprocess_word_diff_example :
    postprocess_word_diff ("\x7b+a+\x7dbc[-d-]e".toList) 0 =
      ("abcde".toList, [⟨0, 1⟩], [⟨3, 4⟩]) := by
  decide

/-- C2: each marker is replaced by its bare inner text; the region recorded
for the match at input offset `s` with `k` matches already replaced is
`[base + s - 4k, base + s - 4k + len t)`; at base offset 0 the output text
restricted to that region is the inner text; and the output text is
shorter than the input by exactly 4 characters per recorded region. -/
theorem postprocess_word_diff_offsets
    (text : List Char) (base : Int) (k s : Nat) (flag : Bool) (t : List Char)
    (h : (pwd_scan text 0).2.get? k = some (s, flag, t)) :
    (mk_regions base (pwd_scan text 0).2 0).get? k =
        some (flag, ⟨base + s - 4 * k, base + s - 4 * k + t.length⟩)
      ∧ 4 * k ≤ s
      ∧ ((postprocess_word_diff text 0).1.drop (s - 4 * k)).take t.length = t
      ∧ (⟨base + s - 4 * k, base + s - 4 * k + t.length⟩ : Region) ∈
          (if flag then (postprocess_word_diff text base).2.1
           else (postprocess_word_diff text base).2.2)
      ∧ (postprocess_word_diff text base).1.length
          + 4 * ((postprocess_word_diff text base).2.1.length
                 + (postprocess_word_diff text base).2.2.length)
          = text.length := by
  have hslice := pwd_scan_go_slice text.length text 0 k s flag t (Nat.le_refl _) h
  have hget := mk_regions_get? base (pwd_scan text 0).2 0 k
  rw [h] at hget
  simp only [Option.map_some', Nat.cast_zero, zero_add] at hget
  have hlen := pwd_scan_go_length text.length text 0 (Nat.le_refl _)
  have hflen := filter_true_false_length (mk_regions base (pwd_scan text 0).2 0)
  have hmlen := mk_regions_length base (pwd_scan text 0).2 0
  refine ⟨hget, ?_, ?_, ?_, ?_⟩
  · have := hslice.1
    omega
  · simpa [postprocess_word_diff, pwd_scan] using hslice.2
  · have hmem : (flag, (⟨base + s - 4 * k, base + s - 4 * k + t.length⟩ : Region)) ∈
        mk_regions base (pwd_scan text 0).2 0 := List.get?_mem hget
    have hadded : (postprocess_word_diff text base).2.1 =
        ((mk_regions base (pwd_scan text 0).2 0).filter (fun p => p.1)).map
          (fun p => p.2) := rfl
    have hremoved : (postprocess_word_diff text base).2.2 =
        ((mk_regions base (pwd_scan text 0).2 0).filter (fun p => !p.1)).map
          (fun p => p.2) := rfl
    cases flag with
    | true =>
      rw [if_pos rfl, hadded]
      exact List.mem_map_of_mem _ (List.mem_filter.mpr ⟨hmem, rfl⟩)
    | false =>
      rw [if_neg (by simp), hremoved]
      exact List.mem_map_of_mem _ (List.mem_filter.mpr ⟨hmem, rfl⟩)
  · simp only [postprocess_word_diff, List.length_map, pwd_scan] at *
    omega

/-- C8: the added and the removed region lists returned by the word-diff
postprocessor are each in left-to-right document order (region start
offsets non-decreasing). -/
theorem postprocess_word_diff_regions_ordered (text : List Char) (base : Int) :
    List.Pairwise (fun r r' : Region => r.a ≤ r'.a) (postprocess_word_diff text base).2.1
    ∧ List.Pairwise (fun r r' : Region => r.a ≤ r'.a) (postprocess_word_diff text base).2.2 := by
  have hch := pwd_scan_go_chained text.length text 0
  have hpw : List.Pairwise (fun p q : Bool × Region => p.2.a ≤ q.2.a)
      (mk_regions base (pwd_scan text 0).2 0) :=
    mk_regions_pairwise base (pwd_scan text 0).2 0 0 hch
  constructor
  · simp only [postprocess_word_diff]
    exact List.pairwise_map.mpr (hpw.filter _)
  · simp only [postprocess_word_diff]
    exact List.pairwise_map.mpr (hpw.filter _)

/-- C9: on text containing no word-diff marker, the postprocessor returns
the input unchanged together with two empty region lists, for every base
offset. -/
theorem postprocess_word_diff_no_markers (text : List Char) (base : Int)
    (h : has_word_diff_marker text = false) :
    postprocess_word_diff text base = (text, [], []) := by
  have hnone : ∀ s', s' <:+ text → matchAt s' = none := by
    intro s' hs'
    simp only [has_word_diff_marker, List.any_eq_false] at h
    have := h s' (by rw [List.mem_tails]; exact hs')
    exact Option.not_isSome_iff_eq_none.mp (by simpa using this)
  have hscan : pwd_scan text 0 = (text, []) :=
    pwd_scan_go_no_match text.length text 0 (Nat.le_refl _) hnone
  simp [postprocess_word_diff, hscan, mk_regions]

/-- Witness for C2 at a concrete input: the text has one added marker at
input offset 1 with inner text of length 2. -/
theorem postprocess_word_diff_offsets_witness :
    (pwd_scan ("x\x7b+ab+\x7dy".toList) 0).2.get? 0 = some (1, true, "ab".toList)
    ∧ ((mk_regions 2 (pwd_scan ("x\x7b+ab+\x7dy".toList) 0).2 0).get? 0 =
          some (true, ⟨3, 5⟩)
        ∧ 4 * 0 ≤ 1
        ∧ ((postprocess_word_diff ("x\x7b+ab+\x7dy".toList) 0).1.drop 1).take 2 = "ab".toList
        ∧ (⟨3, 5⟩ : Region) ∈ (postprocess_word_diff ("x\x7b+ab+\x7dy".toList) 2).2.1
        ∧ (postprocess_word_diff ("x\x7b+ab+\x7dy".toList) 2).1.length
            + 4 * ((postprocess_word_diff ("x\x7b+ab+\x7dy".toList) 2).2.1.length
                   + (postprocess_word_diff ("x\x7b+ab+\x7dy".toList) 2).2.2.length)
            = ("x\x7b+ab+\x7dy".toList).length) := by
  refine ⟨by decide, ?_⟩
  have := postprocess_word_diff_offsets ("x\x7b+ab+\x7dy".toList) 2 0 1 true "ab".toList
    (by decide)
  simpa using this

/-- Witness for C9 at a concrete input without markers. -/
theorem postprocess_word_diff_no_markers_witness :
    has_word_diff_marker ("plain [-text".toList) = false
    ∧ postprocess_word_diff ("plain [-text".toList) 7 =
        ("plain [-text".toList, [], []) :=
  ⟨by decide, postprocess_word_diff_no_markers ("plain [-text".toList) 7 (by decide)⟩

/-! ## Hunks and the coordinate mapper

`real_rowcol_in_hunk`, `counted_lines` and `_recount_lines` live in
`core/commands/diff.py`.  They consume `Hunk` and `HunkLine` values from
the `parse_diff` module, which is not part of the sources at hand, so the
data carried by those values is modelled from the spec. -/

/-- Modelled from the spec: a hunk content line is classified into exactly
one of context, deletion (a `from` line) or addition (a `to` line); this
is the tagged variant the spec prescribes for the three mutually exclusive
line prefixes. -/
inductive LineMode where
  | context
  | deletion
  | addition
deriving DecidableEq, Repr

/-- Modelled from the spec: one hunk content line, carrying its class and
its content — the line text without the leading `+`/`-`/space marker
character (the spec's deletion-fallback example counts `len("bar")` for
the line `"+bar"`). -/
structure HunkLine where
  mode : LineMode
  content : List Char
deriving DecidableEq, Repr

def HunkLine.is_from_line (l : HunkLine) : Bool := l.mode == LineMode.deletion

def HunkLine.is_to_line (l : HunkLine) : Bool := l.mode == LineMode.addition

def HunkLine.is_context (l : HunkLine) : Bool := l.mode == LineMode.context

/-- Modelled from the spec: a hunk exposes `fromLineStart`, the b-side
(destination) starting line number from its `@@` header — an integer, or
absent if unparseable — and its content lines. -/
structure Hunk where
  from_line_start : Option Nat
  lines : List HunkLine
deriving DecidableEq, Repr

/-- A content line paired with its running b-side line number
(`HunkLineWithB` in the source). -/
abbrev HunkLineWithB := HunkLine × Nat

/-- Modelled from the spec (`utils.line_indentation` is not among the
sources at hand): the indentation of a line is the number of its leading
whitespace characters. -/
def line_indentation (l : List Char) : Nat := (l.takeWhile Char.isWhitespace).length

/-- `content.strip()` is truthy — the line has some non-whitespace
character. -/
def nonblank (l : List Char) : Bool := l.any (fun c => !c.isWhitespace)

/-- `_recount_lines(lines, b)` from the source: annotate each line with the
running b value; every line gets a b value, and b advances only after
non-deletion lines. -/
def _recount_lines : List HunkLine → Nat → List HunkLineWithB
  | [], _ => []
  | l :: rest, b =>
    (l, b) :: _recount_lines rest (if l.is_from_line then b else b + 1)

/-- `counted_lines(hunk)` from the source: `none` when the hunk header has
no parseable b start, otherwise the recounted lines. -/
def counted_lines (hunk : Hunk) : Option (List HunkLineWithB) :=
  match hunk.from_line_start with
  | none => none
  | some b => some (_recount_lines hunk.lines b)

/-- The header-line retarget of `real_rowcol_in_hunk`: the 1-based index of
the first line that is not a deletion and has non-blank content, or 1 when
no such line exists (`next(..., 1)` over `enumerate(hunk_lines, 1)`). -/
def first_target_row : List HunkLineWithB → Nat → Nat
  | [], _ => 1
  | (l, _) :: rest, i =>
    if !l.is_from_line ∧ nonblank l.content then i else first_target_row rest (i + 1)

/-- The deletion fallback scan of `real_rowcol_in_hunk` (the `for`/`else`
loop): walk the lines after the targeted deletion; the first addition line
wins (column clamped to its length + 1); otherwise the first context line
decides by comparing indentation with the deleted line; if the scan
exhausts the hunk, fall back to the deletion's own b at column 1. -/
def deletion_fallback (col : Nat) (line : HunkLine) (b : Nat) :
    List HunkLineWithB → Nat × Nat
  | [] => (b, 1)
  | (next_line, next_b) :: rest =>
    if next_line.is_to_line then
      (next_b, min col (next_line.content.length + 1))
    else if next_line.is_context then
      let next_lines_indentation := line_indentation next_line.content
      if next_lines_indentation = line_indentation line.content then
        (next_b, next_lines_indentation + 1)
      else
        (max 1 (b - 1), 1)
    else
      deletion_fallback col line b rest

/-- `real_rowcol_in_hunk(hunk, relative_rowcol)` from the source.  The
Python `hunk_lines[row_in_hunk - 1]` indexing can raise `IndexError`; that
outcome is modelled as `Except.error ()`.  A falsy `hunk_lines` (header
without a parseable b start, or no content lines) yields `ok none`. -/
def real_rowcol_in_hunk (hunk : Hunk) (relative_rowcol : Nat × Nat) :
    Except Unit (Option (Nat × Nat)) :=
  match counted_lines hunk with
  | none => Except.ok none
  | some hunk_lines =>
    match hunk_lines with
    | [] => Except.ok none
    | _ :: _ =>
      let rc := if relative_rowcol.1 = 0
        then (first_target_row hunk_lines 1, 1)
        else relative_rowcol
      match hunk_lines.get? (rc.1 - 1) with
      | none => Except.error ()
      | some lb =>
        if lb.1.is_from_line then
          Except.ok (some (deletion_fallback rc.2 lb.1 lb.2 (hunk_lines.drop rc.1)))
        else
          Except.ok (some (lb.2, rc.2))

/-! ### Facts about the recounted lines and the fallback scans -/

theorem _recount_lines_length : ∀ (ls : List HunkLine) (b : Nat),
    (_recount_lines ls b).length = ls.length := by
  intro ls
  induction ls with
  | nil => intro b; rfl
  | cons l rest ih => intro b; simp [_recount_lines, ih]

theorem _recount_lines_get?_fst : ∀ (ls : List HunkLine) (b j : Nat),
    ((_recount_lines ls b).get? j).map Prod.fst = ls.get? j := by
  intro ls
  induction ls with
  | nil => intro b j; rfl
  | cons l rest ih =>
    intro b j
    cases j with
    | zero => rfl
    | succ j => simpa [_recount_lines] using ih _ j

theorem _recount_lines_b_lower : ∀ (ls : List HunkLine) (b : Nat),
    ∀ p ∈ _recount_lines ls b, b ≤ p.2 := by
  intro ls
  induction ls with
  | nil => intro b p hp; simp [_recount_lines] at hp
  | cons l rest ih =>
    intro b p hp
    simp only [_recount_lines, List.mem_cons] at hp
    cases hp with
    | inl h => subst h; exact Nat.le_refl b
    | inr h =>
      have := ih (if l.is_from_line then b else b + 1) p h
      split at this <;> omega

theorem first_target_row_ge_one : ∀ (ls : List HunkLineWithB) (i : Nat),
    1 ≤ i → 1 ≤ first_target_row ls i := by
  intro ls
  induction ls with
  | nil => intro i hi; simp [first_target_row]
  | cons p rest ih =>
    obtain ⟨l, b⟩ := p
    intro i hi
    simp only [first_target_row]
    split
    · exact hi
    · exact ih (i + 1) (by omega)

theorem first_target_row_le : ∀ (ls : List HunkLineWithB) (i : Nat),
    ls ≠ [] → 1 ≤ i → first_target_row ls i ≤ i + ls.length - 1 := by
  intro ls
  induction ls with
  | nil => intro i hne; exact absurd rfl hne
  | cons p rest ih =>
    obtain ⟨l, b⟩ := p
    intro i hne hi
    simp only [first_target_row]
    split
    · simp only [List.length_cons]; omega
    · cases hrest : rest with
      | nil => subst hrest; simp [first_target_row]; omega
      | cons q rest' =>
        have := ih (i + 1) (by simp [hrest]) (by omega)
        subst hrest
        simp only [List.length_cons] at this ⊢
        omega

theorem line_mode_from (l : HunkLine) (h : l.is_from_line = true) :
    l.is_to_line = false ∧ l.is_context = false := by
  simp only [HunkLine.is_from_line, beq_iff_eq] at h
  simp [HunkLine.is_to_line, HunkLine.is_context, h]

theorem deletion_fallback_skip : ∀ (dels : List HunkLineWithB)
    (col : Nat) (line : HunkLine) (b : Nat) (rest : List HunkLineWithB),
    (∀ p ∈ dels, p.1.is_from_line = true) →
    deletion_fallback col line b (dels ++ rest) = deletion_fallback col line b rest := by
  intro dels
  induction dels with
  | nil => intro col line b rest hdels; rfl
  | cons q dels ih =>
    obtain ⟨l, lb⟩ := q
    intro col line b rest hdels
    have hq := hdels (l, lb) (List.mem_cons_self _ _)
    obtain ⟨hto, hctx⟩ := line_mode_from l hq
    simp only [List.cons_append, deletion_fallback, hto, hctx]
    simp only [Bool.false_eq_true, if_false]
    exact ih col line b rest (fun p hp => hdels p (List.mem_cons_of_mem _ hp))

theorem deletion_fallback_bounds : ∀ (rest : List HunkLineWithB)
    (col : Nat) (line : HunkLine) (b : Nat),
    1 ≤ col → 1 ≤ b → (∀ p ∈ rest, 1 ≤ p.2) →
    1 ≤ (deletion_fallback col line b rest).1
      ∧ 1 ≤ (deletion_fallback col line b rest).2 := by
  intro rest
  induction rest with
  | nil => intro col line b hcol hb hmem; simp [deletion_fallback]; omega
  | cons q rest ih =>
    obtain ⟨nl, nb⟩ := q
    intro col line b hcol hb hmem
    have hnb : 1 ≤ nb := hmem (nl, nb) (List.mem_cons_self _ _)
    simp only [deletion_fallback]
    split
    · constructor
      · exact hnb
      · simp; omega
    · split
      · split
        · exact ⟨hnb, by omega⟩
        · exact ⟨by omega, by omega⟩
      · exact ih col line b hcol hb (fun p hp => hmem p (List.mem_cons_of_mem _ hp))

theorem first_target_row_eq_of_first : ∀ (ls : List HunkLineWithB) (i j : Nat)
    (p : HunkLineWithB),
    ls.get? j = some p →
    ((!p.1.is_from_line) = true ∧ nonblank p.1.content = true) →
    (∀ j' < j, ∀ q, ls.get? j' = some q →
      ¬((!q.1.is_from_line) = true ∧ nonblank q.1.content = true)) →
    first_target_row ls i = i + j := by
  intro ls
  induction ls with
  | nil => intro i j p hget; simp at hget
  | cons q rest ih =>
    obtain ⟨l, b⟩ := q
    intro i j p hget hq hprev
    cases j with
    | zero =>
      simp only [List.get?_cons_zero, Option.some.injEq] at hget
      subst hget
      simp only [first_target_row]
      rw [if_pos hq]
      omega
    | succ j =>
      have hhead := hprev 0 (by omega) (l, b) rfl
      simp only [first_target_row]
      rw [if_neg hhead]
      have := ih (i + 1) j p (by simpa using hget) hq
        (fun j' hj' q' hq' => hprev (j' + 1) (by omega) q' (by simpa using hq'))
      omega

theorem first_target_row_eq_one_of_none : ∀ (ls : List HunkLineWithB) (i : Nat),
    (∀ p ∈ ls, ¬((!p.1.is_from_line) = true ∧ nonblank p.1.content = true)) →
    first_target_row ls i = 1 := by
  intro ls
  induction ls with
  | nil => intro i hnone; rfl
  | cons q rest ih =>
    obtain ⟨l, b⟩ := q
    intro i hnone
    simp only [first_target_row]
    rw [if_neg (hnone (l, b) (List.mem_cons_self _ _))]
    exact ih (i + 1) (fun p hp => hnone p (List.mem_cons_of_mem _ hp))

theorem real_rowcol_eq (hunk : Hunk) (b0 : Nat) (hb : hunk.from_line_start = some b0)
    (ls : List HunkLineWithB) (hls : _recount_lines hunk.lines b0 = ls) (hne : ls ≠ [])
    (r c : Nat) :
    real_rowcol_in_hunk hunk (r, c) =
      (let rc := if r = 0 then (first_target_row ls 1, 1) else (r, c)
       match ls.get? (rc.1 - 1) with
       | none => Except.error ()
       | some lb =>
         if lb.1.is_from_line then
           Except.ok (some (deletion_fallback rc.2 lb.1 lb.2 (ls.drop rc.1)))
         else Except.ok (some (lb.2, rc.2))) := by
  simp only [real_rowcol_in_hunk, counted_lines, hb, hls]
  cases ls with
  | nil => exact absurd rfl hne
  | cons p rest => rfl

theorem line_mode_context_facts (l : HunkLine) (h : l.is_context = true) :
    l.is_to_line = false ∧ l.is_from_line = false := by
  simp only [HunkLine.is_context, beq_iff_eq] at h
  simp [HunkLine.is_to_line, HunkLine.is_from_line, h]

/-! ### Claims about the coordinate mapper -/

/-- C3: for the hunk with content lines `-foo`, `+bar` and b start 10, the
cursor on the deletion line at any column `c ≥ 1` maps to destination row
10 with the column clamped to the addition line length plus one,
`min c 4`. -/
theorem real_rowcol_deletion_addition_example (c : Nat) (hc : 1 ≤ c) :
    real_rowcol_in_hunk
        ⟨some 10, [⟨LineMode.deletion, ['f','o','o']⟩, ⟨LineMode.addition, ['b','a','r']⟩]⟩
        (1, c)
      = Except.ok (some (10, min c 4)) := rfl

/-- Witness for C3 at column 9: the clamp yields column 4, the spec
example value. -/
theorem real_rowcol_deletion_addition_example_witness :
    1 ≤ 9 ∧
    real_rowcol_in_hunk
        ⟨some 10, [⟨LineMode.deletion, ['f','o','o']⟩, ⟨LineMode.addition, ['b','a','r']⟩]⟩
        (1, 9)
      = Except.ok (some (10, 4)) :=
  ⟨by decide, by simpa using real_rowcol_deletion_addition_example 9 (by decide)⟩

/-- C4: with the cursor on the `@@` header line (relative row 0), the
mapper retargets to the 1-based index of the first content line that is
not a deletion and has non-blank content — defaulting to row 1 when no
such line exists — and forces the column to 1. -/
theorem real_rowcol_header_retarget (hunk : Hunk) (b0 c i : Nat)
    (hb : hunk.from_line_start = some b0)
    (hne : hunk.lines ≠ [])
    (hi1 : 1 ≤ i)
    (hchar :
      (∃ l, hunk.lines.get? (i - 1) = some l
          ∧ ((!l.is_from_line) = true ∧ nonblank l.content = true)
          ∧ ∀ j < i - 1, ∀ l', hunk.lines.get? j = some l' →
              ¬((!l'.is_from_line) = true ∧ nonblank l'.content = true))
      ∨ (i = 1 ∧ ∀ l ∈ hunk.lines, ¬((!l.is_from_line) = true ∧ nonblank l.content = true))) :
    real_rowcol_in_hunk hunk (0, c) = real_rowcol_in_hunk hunk (i, 1) := by
  have hls : _recount_lines hunk.lines b0 = _recount_lines hunk.lines b0 := rfl
  set ls := _recount_lines hunk.lines b0 with hlsdef
  have hlsne : ls ≠ [] := by
    intro hE
    apply hne
    have := _recount_lines_length hunk.lines b0
    rw [← hlsdef, hE] at this
    simpa using (List.length_eq_zero.mp this.symm)
  have hftr : first_target_row ls 1 = i := by
    cases hchar with
    | inl hfound =>
      obtain ⟨l, hget, hq, hprev⟩ := hfound
      have hmapped := _recount_lines_get?_fst hunk.lines b0 (i - 1)
      rw [← hlsdef, hget] at hmapped
      obtain ⟨p, hp, hpfst⟩ := Option.map_eq_some'.mp hmapped
      have := first_target_row_eq_of_first ls 1 (i - 1) p hp
        (by rw [hpfst]; exact hq)
        (by
          intro j' hj' q hq'
          have hm := _recount_lines_get?_fst hunk.lines b0 j'
          rw [← hlsdef, hq'] at hm
          simp only [Option.map_some'] at hm
          exact hprev j' hj' q.1 hm.symm)
      omega
    | inr hnone =>
      obtain ⟨rfl, hnone⟩ := hnone
      apply first_target_row_eq_one_of_none
      intro p hp
      obtain ⟨j, hj⟩ := List.mem_iff_get?.mp hp
      have hm := _recount_lines_get?_fst hunk.lines b0 j
      rw [← hlsdef, hj] at hm
      simp only [Option.map_some'] at hm
      exact hnone p.1 (List.get?_mem hm.symm)
  rw [real_rowcol_eq hunk b0 hb ls hlsdef.symm hlsne 0 c,
      real_rowcol_eq hunk b0 hb ls hlsdef.symm hlsne i 1]
  simp only
  rw [if_neg (show ¬ i = 0 by omega)]
  simp only [if_true, hftr]

/-- Witness for C4 on the spec example hunk: first content line a
deletion, second line blank, third line non-blank context — the header
cursor resolves to the third content line (b value 6) at column 1. -/
theorem real_rowcol_header_retarget_witness :
    real_rowcol_in_hunk
        ⟨some 5, [⟨LineMode.deletion, ['f','o','o']⟩, ⟨LineMode.context, []⟩,
                  ⟨LineMode.context, ['b','a','r']⟩]⟩
        (0, 7)
      = Except.ok (some (6, 1)) := by
  have := real_rowcol_header_retarget
    ⟨some 5, [⟨LineMode.deletion, ['f','o','o']⟩, ⟨LineMode.context, []⟩,
              ⟨LineMode.context, ['b','a','r']⟩]⟩
    5 7 3 rfl (by simp) (by omega)
    (Or.inl ⟨⟨LineMode.context, ['b','a','r']⟩, by decide, by decide, by decide⟩)
  exact this.trans rfl

/-- C5: cursor on a deletion line with no addition line before the first
context line after it: the context line wins at its indentation column
when the indentations agree, otherwise the mapper falls back to
`max (1, b - 1)` at column 1; and when nothing follows the deletion at
all, it falls back to the deletion's own b at column 1. -/
theorem real_rowcol_deletion_context_fallback (hunk : Hunk) (ls : List HunkLineWithB)
    (r c b : Nat) (line : HunkLine)
    (hcount : counted_lines hunk = some ls)
    (hr : 1 ≤ r)
    (hget : ls.get? (r - 1) = some (line, b))
    (hdel : line.is_from_line = true) :
    (ls.drop r = [] → real_rowcol_in_hunk hunk (r, c) = Except.ok (some (b, 1)))
    ∧ (∀ dels ctx cb rest, ls.drop r = dels ++ ((ctx, cb) :: rest) →
        (∀ p ∈ dels, p.1.is_from_line = true) → ctx.is_context = true →
        real_rowcol_in_hunk hunk (r, c) = Except.ok (some (
          if line_indentation ctx.content = line_indentation line.content
          then (cb, line_indentation ctx.content + 1)
          else (max 1 (b - 1), 1)))) := by
  obtain ⟨b0, hb, hls⟩ : ∃ b0, hunk.from_line_start = some b0
      ∧ _recount_lines hunk.lines b0 = ls := by
    unfold counted_lines at hcount
    cases hE : hunk.from_line_start with
    | none => rw [hE] at hcount; exact absurd hcount (by simp)
    | some b0 =>
      rw [hE] at hcount
      exact ⟨b0, rfl, by simpa using hcount⟩
  have hlsne : ls ≠ [] := by
    intro hE
    rw [hE] at hget
    simp at hget
  have hbody := real_rowcol_eq hunk b0 hb ls hls hlsne r c
  rw [if_neg (by omega : ¬ r = 0)] at hbody
  simp only at hbody
  rw [hget] at hbody
  simp only [hdel, if_true] at hbody
  constructor
  · intro hdrop
    rw [hbody, hdrop]
    rfl
  · intro dels ctx cb rest hdrop hdels hctx
    rw [hbody, hdrop, deletion_fallback_skip dels c line b _ hdels]
    obtain ⟨hto, _⟩ := line_mode_context_facts ctx hctx
    simp only [deletion_fallback, hto, Bool.false_eq_true, if_false, hctx, if_true]

/-- Witness for C5: a deletion followed by a single context line of equal
indentation — the mapper jumps to the context line's b value 3 at its
indentation column 3. -/
theorem real_rowcol_deletion_context_fallback_witness :
    counted_lines ⟨some 3, [⟨LineMode.deletion, [' ',' ','x']⟩,
                            ⟨LineMode.context, [' ',' ','y']⟩]⟩
        = some [(⟨LineMode.deletion, [' ',' ','x']⟩, 3),
                (⟨LineMode.context, [' ',' ','y']⟩, 3)]
    ∧ real_rowcol_in_hunk
        ⟨some 3, [⟨LineMode.deletion, [' ',' ','x']⟩, ⟨LineMode.context, [' ',' ','y']⟩]⟩
        (1, 9)
      = Except.ok (some (3, 3)) := by
  refine ⟨by decide, ?_⟩
  have := (real_rowcol_deletion_context_fallback
    ⟨some 3, [⟨LineMode.deletion, [' ',' ','x']⟩, ⟨LineMode.context, [' ',' ','y']⟩]⟩
    [(⟨LineMode.deletion, [' ',' ','x']⟩, 3), (⟨LineMode.context, [' ',' ','y']⟩, 3)]
    1 9 3 ⟨LineMode.deletion, [' ',' ','x']⟩
    (by decide) (by decide) (by decide) (by decide)).2
    [] ⟨LineMode.context, [' ',' ','y']⟩ 3 [] (by decide) (by simp) (by decide)
  simpa using this

theorem real_rowcol_some_helper (hunk : Hunk) (b0 r c : Nat)
    (hb : hunk.from_line_start = some b0) (hne : hunk.lines ≠ [])
    (hr : r ≤ hunk.lines.length) :
    ∃ row col, real_rowcol_in_hunk hunk (r, c) = Except.ok (some (row, col))
      ∧ (1 ≤ b0 → 1 ≤ c → 1 ≤ row ∧ 1 ≤ col) := by
  have hlsdef : _recount_lines hunk.lines b0 = _recount_lines hunk.lines b0 := rfl
  set ls := _recount_lines hunk.lines b0 with hlsd
  have hlslen : ls.length = hunk.lines.length := _recount_lines_length hunk.lines b0
  have hlsne : ls ≠ [] := by
    intro hE
    apply hne
    rw [hE] at hlslen
    exact List.length_eq_zero.mp hlslen.symm
  set j := (if r = 0 then first_target_row ls 1 else r) with hjd
  set colv := (if r = 0 then 1 else c) with hcolvd
  have hj1 : 1 ≤ j := by
    rw [hjd]
    split
    · exact first_target_row_ge_one ls 1 (by omega)
    · omega
  have hjle : j ≤ ls.length := by
    rw [hjd]
    split
    · have := first_target_row_le ls 1 hlsne (by omega)
      have hpos : 1 ≤ ls.length := by
        cases hE : ls with
        | nil => exact absurd hE hlsne
        | cons p rest => simp
      omega
    · omega
  obtain ⟨lb, hget⟩ : ∃ lb, ls.get? (j - 1) = some lb := by
    cases hE : ls.get? (j - 1) with
    | none =>
      have := List.get?_eq_none.mp hE
      omega
    | some lb => exact ⟨lb, rfl⟩
  have hrc : (if r = 0 then (first_target_row ls 1, 1) else (r, c)) = (j, colv) := by
    by_cases h0 : r = 0 <;> simp [h0, hjd, hcolvd]
  have hbody := real_rowcol_eq hunk b0 hb ls hlsd.symm hlsne r c
  rw [hrc] at hbody
  simp only at hbody
  rw [hget] at hbody
  have hblower : b0 ≤ lb.2 :=
    _recount_lines_b_lower hunk.lines b0 lb (by rw [← hlsd]; exact List.get?_mem hget)
  have hcolv1 : 1 ≤ c → 1 ≤ colv := by
    intro hc
    rw [hcolvd]
    split <;> omega
  cases hfl : lb.1.is_from_line with
  | false =>
    refine ⟨lb.2, colv, ?_, ?_⟩
    · rw [hbody]
      simp [hfl]
    · intro hb0 hc
      exact ⟨by omega, hcolv1 hc⟩
  | true =>
    refine ⟨(deletion_fallback colv lb.1 lb.2 (ls.drop j)).1,
            (deletion_fallback colv lb.1 lb.2 (ls.drop j)).2, ?_, ?_⟩
    · rw [hbody]
      simp [hfl]
    · intro hb0 hc
      refine deletion_fallback_bounds (ls.drop j) colv lb.1 lb.2 (hcolv1 hc) (by omega) ?_
      intro p hp
      have := _recount_lines_b_lower hunk.lines b0 p
        (by rw [← hlsd]; exact List.mem_of_mem_drop hp)
      omega

theorem real_rowcol_ne_ok_none (hunk : Hunk) (b0 r c : Nat)
    (hb : hunk.from_line_start = some b0) (hne : hunk.lines ≠ []) :
    real_rowcol_in_hunk hunk (r, c) ≠ Except.ok none := by
  have hlslen := _recount_lines_length hunk.lines b0
  have hlsne : _recount_lines hunk.lines b0 ≠ [] := by
    intro hE
    apply hne
    rw [hE] at hlslen
    exact List.length_eq_zero.mp hlslen.symm
  rw [real_rowcol_eq hunk b0 hb _ rfl hlsne r c]
  simp only
  split
  · simp
  · split <;> simp

/-- C6 (counterexample): the claim that the mapper always lands on a
one-based location fails as stated — with b start 0 (the header of a
fully deleted file parses as `+0,0`) and cursor column 0 the mapper
returns row 0, column 0. -/
theorem real_rowcol_onebased_counterexample :
    ¬ (∀ (hunk : Hunk) (r c : Nat), hunk.from_line_start ≠ none → hunk.lines ≠ [] →
        r ≤ hunk.lines.length →
        ∃ row col, real_rowcol_in_hunk hunk (r, c) = Except.ok (some (row, col))
          ∧ 1 ≤ row ∧ 1 ≤ col) := by
  intro hall
  obtain ⟨row, col, heq, hrow, hcol⟩ :=
    hall ⟨some 0, [⟨LineMode.addition, ['x']⟩]⟩ 1 0 (by simp) (by simp) (by simp)
  have heval : real_rowcol_in_hunk ⟨some 0, [⟨LineMode.addition, ['x']⟩]⟩ (1, 0)
      = Except.ok (some (0, 0)) := rfl
  rw [heval] at heq
  simp only [Except.ok.injEq, Option.some.injEq, Prod.mk.injEq] at heq
  omega

/-- C6 (amended): for relative rows up to the number of content lines the
mapper never raises; it returns `none` exactly when the header has no
parseable b start or the hunk has no content lines; and in every other
case, provided the parsed b start is at least 1 and the cursor column is
at least 1, it returns a location with row ≥ 1 and column ≥ 1. -/
theorem real_rowcol_total_and_onebased (hunk : Hunk) :
    (∀ r c, r ≤ hunk.lines.length → real_rowcol_in_hunk hunk (r, c) ≠ Except.error ())
    ∧ (∀ r c, real_rowcol_in_hunk hunk (r, c) = Except.ok none ↔
        (hunk.from_line_start = none ∨ hunk.lines = []))
    ∧ (∀ r c b0, hunk.from_line_start = some b0 → 1 ≤ b0 → hunk.lines ≠ [] →
        r ≤ hunk.lines.length → 1 ≤ c →
        ∃ row col, real_rowcol_in_hunk hunk (r, c) = Except.ok (some (row, col))
          ∧ 1 ≤ row ∧ 1 ≤ col) := by
  refine ⟨?_, ?_, ?_⟩
  · intro r c hr
    cases hfs : hunk.from_line_start with
    | none =>
      have hval : real_rowcol_in_hunk hunk (r, c) = Except.ok none := by
        simp [real_rowcol_in_hunk, counted_lines, hfs]
      simp [hval]
    | some b0 =>
      cases hE : hunk.lines with
      | nil =>
        have hval : real_rowcol_in_hunk hunk (r, c) = Except.ok none := by
          simp [real_rowcol_in_hunk, counted_lines, hfs, hE, _recount_lines]
        simp [hval]
      | cons l rest =>
        obtain ⟨row, col, hval, _⟩ := real_rowcol_some_helper hunk b0 r c hfs
          (by simp [hE]) hr
        simp [hval]
  · intro r c
    constructor
    · intro hval
      by_contra hcon
      push_neg at hcon
      obtain ⟨hfs, hlines⟩ := hcon
      cases hE : hunk.from_line_start with
      | none => exact hfs hE
      | some b0 => exact real_rowcol_ne_ok_none hunk b0 r c hE hlines hval
    · intro hdis
      cases hdis with
      | inl hfs => simp [real_rowcol_in_hunk, counted_lines, hfs]
      | inr hlines =>
        cases hE : hunk.from_line_start with
        | none => simp [real_rowcol_in_hunk, counted_lines, hE]
        | some b0 =>
          simp [real_rowcol_in_hunk, counted_lines, hE, hlines, _recount_lines]
  · intro r c b0 hb hb0 hne hr hc
    obtain ⟨row, col, hval, hbounds⟩ := real_rowcol_some_helper hunk b0 r c hb hne hr
    exact ⟨row, col, hval, (hbounds hb0 hc).1, (hbounds hb0 hc).2⟩

/-- Witness for the amended C6 at a concrete hunk with b start 1. -/
theorem real_rowcol_total_and_onebased_witness :
    ∃ row col, real_rowcol_in_hunk ⟨some 1, [⟨LineMode.addition, ['x']⟩]⟩ (1, 1)
        = Except.ok (some (row, col)) ∧ 1 ≤ row ∧ 1 ≤ col :=
  (real_rowcol_total_and_onebased ⟨some 1, [⟨LineMode.addition, ['x']⟩]⟩).2.2
    1 1 1 rfl (by decide) (by simp) (by decide) (by decide)

/-! ## Fuzzy hunk search

`fuzzy_search_hunk_content_in_view` and `shrink_list_sym` live in
`core/commands/diff.py`.  The editor's literal search (`view.find` with
`sublime.LITERAL`) is modelled as first-occurrence substring search, and
the re-parse of the buffer (`SplittedDiff.from_view` /
`head_and_hunk_for_pt` from the `parse_diff` module, not among the sources
at hand) is modelled from the spec. -/

/-- The editor's literal search: the offset of the first occurrence of
`pat` in the buffer, scanning from offset `i`. -/
def find_lit (pat : List Char) : List Char → Nat → Option Nat
  | [], i => if pat.isPrefixOf ([] : List Char) then some i else none
  | buf@(_ :: rest), i =>
    if pat.isPrefixOf buf then some i else find_lit pat rest (i + 1)

/-- Split the buffer into lines, each paired with its start offset.
`acc` holds the current line's characters in reverse, `start` its start
offset. -/
def lwo : List Char → Nat → List Char → Nat → List (Nat × List Char)
  | [], _, acc, start => [(start, acc.reverse)]
  | c :: rest, pos, acc, start =>
    if c = '\n' then (start, acc.reverse) :: lwo rest (pos + 1) [] (pos + 1)
    else lwo rest (pos + 1) (c :: acc) start

def lines_with_offsets (buf : List Char) : List (Nat × List Char) := lwo buf 0 [] 0

/-- The tail of the hunk-header pattern `[^+]*\+(\d+)`: scan up to the
first `+` (so everything before it is not `+`) and require a digit right
after it. -/
def after_plus_digit : List Char → Bool
  | [] => false
  | '+' :: rest =>
    match rest with
    | d :: _ => d.isDigit
    | [] => false
  | _ :: rest => after_plus_digit rest

/-- Modelled from the spec: a hunk-header line matches `^@@ [^+]*\+(\d+)`. -/
def is_hunk_header (l : List Char) : Bool :=
  "@@ ".toList.isPrefixOf l && after_plus_digit (l.drop 3)

/-- `pat` occurs somewhere in the line. -/
def contains_seq (pat : List Char) : List Char → Bool
  | [] => pat.isPrefixOf ([] : List Char)
  | l@(_ :: rest) => pat.isPrefixOf l || contains_seq pat rest

/-- Modelled from the spec: a file-header line matches one of the four
textual forms — `diff --git a/...`, `--- a/`, `+++ b/`, or the indented
tabular file-stat line containing a `|` separator. -/
def is_file_header (l : List Char) : Bool :=
  "diff --git a/".toList.isPrefixOf l || "--- a/".toList.isPrefixOf l ||
  "+++ b/".toList.isPrefixOf l ||
  ("  ".toList.isPrefixOf l && contains_seq " | ".toList l)

/-- A hunk recovered from the re-parse: its header line occupies
`[header_a, header_b)` and the whole hunk spans `[header_a, content_b)`. -/
structure ParsedHunk where
  header_a : Nat
  header_b : Nat
  content_b : Nat
deriving DecidableEq, Repr

/-- Modelled from the spec: the parsed buffer — the file-header line start
offsets and the hunks. -/
structure SplittedDiffM where
  header_starts : List Nat
  hunks : List ParsedHunk
deriving DecidableEq, Repr

/-- The header lines of the buffer in document order:
`(start, end-of-line, is-hunk-header)`. -/
def collect_headers : List (Nat × List Char) → List (Nat × Nat × Bool)
  | [] => []
  | (start, l) :: rest =>
    if is_hunk_header l then (start, start + l.length, true) :: collect_headers rest
    else if is_file_header l then (start, start + l.length, false) :: collect_headers rest
    else collect_headers rest

/-- Modelled from the spec: a hunk's content spans from just after its
header line to the next header line of either kind, or the end of the
document. -/
def hunk_ranges (total : Nat) : List (Nat × Nat × Bool) → List ParsedHunk
  | [] => []
  | (s, e, isH) :: rest =>
    let nxt := match rest with
      | (s', _, _) :: _ => s'
      | [] => total
    if isH then ⟨s, e, nxt⟩ :: hunk_ranges total rest else hunk_ranges total rest

/-- Modelled from the spec: re-parse the buffer into file headers and
hunks (`SplittedDiff.from_view`). -/
def SplittedDiffM.from_view (buf : List Char) : SplittedDiffM :=
  let hs := collect_headers (lines_with_offsets buf)
  ⟨(hs.filter (fun h => !h.2.2)).map (fun h => h.1), hunk_ranges buf.length hs⟩

/-- Modelled from the spec: the hunk whose byte range contains the offset,
paired with a preceding file header — `none` when the offset lies in no
hunk or no file header precedes it. -/
def head_and_hunk_for_pt (d : SplittedDiffM) (pt : Nat) : Option ParsedHunk :=
  match d.hunks.find? (fun h => decide (h.header_a ≤ pt ∧ pt < h.content_b)) with
  | none => none
  | some h => if d.header_starts.any (fun f => decide (f < h.header_a)) then some h else none

/-- `shrink_list_sym` from the source: yield the list, then strip one
element from each end (`list[1:-1]`) and repeat while non-empty.  `fuel`
only bounds the recursion; `l.length` steps always suffice. -/
def shrink_go {α : Type} : Nat → List α → List (List α)
  | _, [] => []
  | 0, _ :: _ => []
  | fuel + 1, l@(_ :: _) => l :: shrink_go fuel l.tail.dropLast

def shrink_list_sym {α : Type} (l : List α) : List (List α) := shrink_go l.length l

/-- The loop body of `fuzzy_search_hunk_content_in_view` over the shrink
candidates: on the first candidate found in the buffer, re-parse and
report the enclosing hunk's header region — or give up (`break`) when the
match lies in no hunk; only a candidate that is not found at all moves the
loop to the next, smaller candidate. -/
def fuzzy_go (buf : List Char) : List (List (List Char)) → Option Region
  | [] => none
  | c :: rest =>
    match find_lit (List.intercalate ['\n'] c) buf 0 with
    | some i =>
      match head_and_hunk_for_pt (SplittedDiffM.from_view buf) i with
      | some h => some ⟨h.header_a, h.header_b⟩
      | none => none
    | none => fuzzy_go buf rest

/-- `fuzzy_search_hunk_content_in_view(view, lines)` from the source. -/
def fuzzy_search_hunk_content_in_view (buf : List Char) (lines : List (List Char)) :
    Option Region :=
  fuzzy_go buf (shrink_list_sym lines)


/-! ### Facts about the shrink sequence and the fuzzy search -/

theorem tail_dropLast_length {α : Type} (l : List α) :
    l.tail.dropLast.length = l.length - 2 := by
  rw [List.length_dropLast, List.length_tail]
  omega

theorem tail_dropLast_slice {α : Type} (l : List α) (k : Nat) :
    (l.tail.dropLast.drop k).take (l.tail.dropLast.length - 2 * k)
      = (l.drop (k + 1)).take (l.length - 2 * (k + 1)) := by
  have h1 : l.tail.dropLast = (l.drop 1).take (l.length - 2) := by
    rw [← List.drop_one, List.dropLast_eq_take, List.length_drop]
    have harith : l.length - 1 - 1 = l.length - 2 := by omega
    rw [harith]
  rw [tail_dropLast_length, h1, List.drop_take, List.drop_drop, List.take_take]
  congr 1
  · omega
  · congr 1
    omega

theorem shrink_go_spec {α : Type} : ∀ (fuel : Nat) (l : List α), l.length ≤ fuel →
    (shrink_go fuel l).length = (l.length + 1) / 2
    ∧ ∀ k c, (shrink_go fuel l).get? k = some c →
        c = (l.drop k).take (l.length - 2 * k) ∧ c ≠ [] := by
  intro fuel
  induction fuel with
  | zero =>
    intro l hf
    have hnil : l = [] := by
      cases l with
      | nil => rfl
      | cons a rest => simp at hf
    subst hnil
    refine ⟨by simp [shrink_go], ?_⟩
    intro k c hget
    simp [shrink_go] at hget
  | succ fuel ih =>
    intro l hf
    cases l with
    | nil =>
      refine ⟨by simp [shrink_go], ?_⟩
      intro k c hget
      simp [shrink_go] at hget
    | cons a rest =>
      have hlen2 : (a :: rest).tail.dropLast.length = (a :: rest).length - 2 :=
        tail_dropLast_length _
      have hrec := ih ((a :: rest).tail.dropLast)
        (by rw [hlen2]; simp only [List.length_cons] at hf ⊢; omega)
      constructor
      · simp only [shrink_go]
        rw [List.length_cons, hrec.1, hlen2]
        simp only [List.length_cons]
        omega
      · intro k c hget
        cases k with
        | zero =>
          simp only [shrink_go, List.get?_cons_zero, Option.some.injEq] at hget
          subst hget
          refine ⟨?_, by simp⟩
          simp
        | succ k =>
          simp only [shrink_go, List.get?_cons_succ] at hget
          have hres := hrec.2 k c hget
          refine ⟨?_, hres.2⟩
          rw [hres.1]
          exact tail_dropLast_slice (a :: rest) k

theorem fuzzy_go_cons_found (buf : List Char) (c : List (List Char))
    (rest : List (List (List Char))) (i : Nat)
    (hf : find_lit (List.intercalate ['\n'] c) buf 0 = some i) :
    fuzzy_go buf (c :: rest) =
      match head_and_hunk_for_pt (SplittedDiffM.from_view buf) i with
      | some h => some ⟨h.header_a, h.header_b⟩
      | none => none := by
  simp [fuzzy_go, hf]

theorem fuzzy_go_cons_notfound (buf : List Char) (c : List (List Char))
    (rest : List (List (List Char)))
    (hf : find_lit (List.intercalate ['\n'] c) buf 0 = none) :
    fuzzy_go buf (c :: rest) = fuzzy_go buf rest := by
  simp [fuzzy_go, hf]

theorem head_and_hunk_mem {d : SplittedDiffM} {pt : Nat} {h : ParsedHunk}
    (hh : head_and_hunk_for_pt d pt = some h) : h ∈ d.hunks := by
  unfold head_and_hunk_for_pt at hh
  split at hh
  · exact absurd hh (by simp)
  · split at hh
    · simp only [Option.some.injEq] at hh
      subst hh
      rename_i hk hfind _
      exact List.mem_of_find?_eq_some hfind
    · exact absurd hh (by simp)

theorem fuzzy_go_header (buf : List Char) : ∀ (cands : List (List (List Char))) (r : Region),
    fuzzy_go buf cands = some r →
    ∃ h, h ∈ (SplittedDiffM.from_view buf).hunks ∧ r = ⟨h.header_a, h.header_b⟩ := by
  intro cands
  induction cands with
  | nil => intro r h; simp [fuzzy_go] at h
  | cons c rest ih =>
    intro r h
    cases hf : find_lit (List.intercalate ['\n'] c) buf 0 with
    | none =>
      rw [fuzzy_go_cons_notfound buf c rest hf] at h
      exact ih r h
    | some i =>
      rw [fuzzy_go_cons_found buf c rest i hf] at h
      split at h
      · rename_i hk hh
        simp only [Option.some.injEq] at h
        exact ⟨hk, head_and_hunk_mem hh, h.symm⟩
      · exact absurd h (by simp)

theorem fuzzy_go_break (buf : List Char) (c : List (List Char))
    (rest : List (List (List Char))) (i : Nat)
    (hfound : find_lit (List.intercalate ['\n'] c) buf 0 = some i)
    (hnohunk : head_and_hunk_for_pt (SplittedDiffM.from_view buf) i = none) :
    ∀ (pre : List (List (List Char))),
      (∀ c' ∈ pre, find_lit (List.intercalate ['\n'] c') buf 0 = none) →
      fuzzy_go buf (pre ++ c :: rest) = none := by
  intro pre
  induction pre with
  | nil =>
    intro hpre
    rw [List.nil_append, fuzzy_go_cons_found buf c rest i hfound, hnohunk]
  | cons c' pre ih =>
    intro hpre
    have hc' := hpre c' (List.mem_cons_self _ _)
    rw [List.cons_append, fuzzy_go_cons_notfound buf c' _ hc']
    exact ih (fun x hx => hpre x (List.mem_cons_of_mem _ hx))

/-! ### Claims about the fuzzy hunk search -/

/-- C7: the shrink sequence strips exactly one line from each end per
iteration (the k-th candidate is `lines[k : n - k]`, never empty, and the
sequence has exactly one candidate per shrink until emptiness); on the
spec's example buffer the full five-line content is not found but the
middle three lines are, after exactly one shrink; and every successful
search reports the header-line region of the enclosing hunk of the
re-parsed buffer, not the content match region. -/
theorem fuzzy_search_shrink_and_header :
    (∀ (l : List (List Char)),
      (shrink_list_sym l).length = (l.length + 1) / 2
      ∧ ∀ k c, (shrink_list_sym l).get? k = some c →
          c = (l.drop k).take (l.length - 2 * k) ∧ c ≠ [])
    ∧ (find_lit
          (List.intercalate ['\n'] [['a'],['b'],['c'],['d'],['e']])
          ("diff --git a/f b/f\n@@ -1,3 +1,3 @@\nb\nc\nd".toList) 0 = none
        ∧ (shrink_list_sym [['a'],['b'],['c'],['d'],['e']]).get? 1 = some [['b'],['c'],['d']]
        ∧ find_lit (List.intercalate ['\n'] [['b'],['c'],['d']])
            ("diff --git a/f b/f\n@@ -1,3 +1,3 @@\nb\nc\nd".toList) 0 = some 35
        ∧ fuzzy_search_hunk_content_in_view
            ("diff --git a/f b/f\n@@ -1,3 +1,3 @@\nb\nc\nd".toList)
            [['a'],['b'],['c'],['d'],['e']] = some ⟨19, 34⟩
        ∧ SplittedDiffM.from_view ("diff --git a/f b/f\n@@ -1,3 +1,3 @@\nb\nc\nd".toList)
            = ⟨[0], [⟨19, 34, 40⟩]⟩)
    ∧ (∀ (buf : List Char) (lines : List (List Char)) (r : Region),
        fuzzy_search_hunk_content_in_view buf lines = some r →
        ∃ h, h ∈ (SplittedDiffM.from_view buf).hunks ∧ r = ⟨h.header_a, h.header_b⟩) := by
  refine ⟨?_, ?_, ?_⟩
  · intro l
    exact shrink_go_spec l.length l (Nat.le_refl _)
  · exact ⟨by decide, by decide, by decide, by decide, by decide⟩
  · intro buf lines r h
    exact fuzzy_go_header buf (shrink_list_sym lines) r h

/-- Witness for C7's header-region property at the example buffer: the
reported region is the header region of a hunk of the re-parsed buffer. -/
theorem fuzzy_search_shrink_and_header_witness :
    ∃ h, h ∈ (SplittedDiffM.from_view
        ("diff --git a/f b/f\n@@ -1,3 +1,3 @@\nb\nc\nd".toList)).hunks
      ∧ (⟨19, 34⟩ : Region) = ⟨h.header_a, h.header_b⟩ :=
  fuzzy_search_shrink_and_header.2.2
    ("diff --git a/f b/f\n@@ -1,3 +1,3 @@\nb\nc\nd".toList)
    [['a'],['b'],['c'],['d'],['e']] ⟨19, 34⟩ (by decide)

/-- C10: when the first shrink candidate that the literal search finds
lies outside every hunk of the re-parsed buffer, the fuzzy search gives up
immediately (`break` then `return None`) without trying any smaller
candidate. -/
theorem fuzzy_search_abandons_on_misplaced_match (buf : List Char)
    (lines : List (List Char)) (pre : List (List (List Char)))
    (c : List (List Char)) (rest : List (List (List Char))) (i : Nat)
    (hsplit : shrink_list_sym lines = pre ++ c :: rest)
    (hpre : ∀ c' ∈ pre, find_lit (List.intercalate ['\n'] c') buf 0 = none)
    (hfound : find_lit (List.intercalate ['\n'] c) buf 0 = some i)
    (hnohunk : head_and_hunk_for_pt (SplittedDiffM.from_view buf) i = none) :
    fuzzy_search_hunk_content_in_view buf lines = none := by
  unfold fuzzy_search_hunk_content_in_view
  rw [hsplit]
  exact fuzzy_go_break buf c rest i hfound hnohunk pre hpre

/-- Witness for C10: in a hunk-free buffer the first candidate is found at
offset 0 but lies in no hunk; the search returns none even though the
smaller candidate of the shrink sequence also occurs in the buffer. -/
theorem fuzzy_search_abandons_on_misplaced_match_witness :
    shrink_list_sym [['x'],['y'],['z']] = [] ++ [['x'],['y'],['z']] :: [[['y']]]
    ∧ find_lit (List.intercalate ['\n'] [['x'],['y'],['z']]) ("x\ny\nz".toList) 0 = some 0
    ∧ head_and_hunk_for_pt (SplittedDiffM.from_view ("x\ny\nz".toList)) 0 = none
    ∧ find_lit (List.intercalate ['\n'] [['y']]) ("x\ny\nz".toList) 0 = some 2
    ∧ fuzzy_search_hunk_content_in_view ("x\ny\nz".toList) [['x'],['y'],['z']] = none :=
  ⟨by decide, by decide, by decide, by decide,
   fuzzy_search_abandons_on_misplaced_match ("x\ny\nz".toList) [['x'],['y'],['z']]
     [] [['x'],['y'],['z']] [[['y']]] 0 (by decide) (by simp) (by decide) (by decide)⟩
